import Mathlib

/-!
Shallow embedding of the decoding core of neural_sp's LAS RNN decoder
(src/neural_sp/models/seq2seq/decoders/las.py) and of the Switchboard CER
evaluation loop (src/examples/swbd/metrics/cer.py).

Modelling conventions:
* Scores are exact rationals; the neural network itself is abstracted into an
  oracle that maps a token prefix (which, in the source, fully determines the
  decoder state, the context vector and the attention state for a fixed
  utterance) to the per-token attention log-probability row, the attention
  weight row, the LM log-probability row and the CTC prefix scores.  Only the
  search/bookkeeping control flow, which is what the claims are about, is
  embedded concretely.
* torch.topk / torch.argmax are embedded with the deterministic CPU tie rule:
  among equal values the smallest index wins, and topk returns indices in
  descending score order.
* Python floats become rationals, so "within floating-point tolerance"
  becomes exact equality; math.pow and torch.log (used only by GNMT-style
  penalties, whose values are irrational in general) are uninterpreted
  function parameters of the oracle.
* The decoder is embedded in its default configuration: forward decoding
  (backward=False), no ensemble (n_models = 1), replace_sos=False, and no
  second-pass LM rescoring.  softmax_smoothing is positive, so the oracle
  directly provides the log-softmax scores row used by beam search; greedy's
  argmax over logits coincides with argmax over that row.
-/

attribute [local semireducible] Rat.add Rat.mul Rat.sub Rat.inv

namespace NeuralSP

/-- Pair a score row entry with its index, keeping only the second component
variable.  Used to state invariance lemmas about selection. -/
def mapSnd (f : ℚ → ℚ) (p : ℕ × ℚ) : ℕ × ℚ := (p.1, f p.2)

/-- First maximum of an indexed score list: the element with the largest
score, ties resolved in favour of the earliest element.  This is the CPU
semantics of torch.argmax / torch.topk used by the decoder. -/
def firstMax : List (ℕ × ℚ) → Option (ℕ × ℚ)
  | [] => none
  | p :: ps => some (ps.foldl (fun q r => if r.2 > q.2 then r else q) p)

/-- Index of the maximal entry of a score row (torch.argmax semantics). -/
def argmaxIdx (l : List ℚ) : ℕ := ((firstMax l.enum).map Prod.fst).getD 0

/-- Auxiliary top-k selection: repeatedly pick the first maximum among the
indices not yet selected. -/
def topkAux (l : List (ℕ × ℚ)) : ℕ → List ℕ → List ℕ
  | 0, _ => []
  | k + 1, excl =>
    match firstMax (l.filter (fun p => !(excl.contains p.1))) with
    | none => []
    | some pi => pi.1 :: topkAux l k (pi.1 :: excl)

/-- Indices of the k largest entries of a score row, in descending score
order (torch.topk with sorted=True, largest=True). -/
def topkIndices (k : ℕ) (l : List ℚ) : List ℕ := topkAux l.enum k []

/-- Maximum score over all indices other than i (the decoder computes this as
the max of the two slices around the <eos> index). -/
def maxExcept (l : List ℚ) (i : ℕ) : ℚ :=
  ((firstMax (l.enum.filter (fun p => !(p.1 == i)))).map Prod.snd).getD 0

example : argmaxIdx [(-2 : ℚ), -1, -1] = 1 := by decide
example : topkIndices 2 [(-2 : ℚ), -1, -1] = [1, 2] := by decide
example : topkIndices 2 [(0 : ℚ), 0, 0] = [0, 1] := by decide
example : maxExcept [(-2 : ℚ), -1, -3] 1 = -2 := by decide

/-! ## Recognition-time parameters and the hypothesis record

BSParams collects the params dict entries read at the top of beam_search /
beam_search_chunk_sync together with the decoder attributes the search uses
(eos index, n_heads) and the presence flags of the optional collaborators
(first-pass LM, CTC prefix scorer). -/

structure BSParams where
  beamWidth : ℕ
  nbest : ℕ
  eosTok : ℕ
  ctcWeight : ℚ
  max_len_ratio : ℚ
  min_len_ratio : ℚ
  lpWeight : ℚ
  cpWeight : ℚ
  cpThreshold : ℚ
  lengthNorm : Bool
  lmWeight : ℚ
  gnmt : Bool
  eosThreshold : ℚ
  hasLM : Bool
  hasCtc : Bool
  nHeads : ℚ
  ignoreEos : Bool
deriving DecidableEq

/-- The neural oracle: for a fixed utterance, every quantity the search reads
at a step is a deterministic function of the token prefix consumed so far
(the prefix starts with <sos> = <eos>).  att is the log-softmax score row
produced from the generation vector, aw the (head-0) attention weight row,
lm the LM log-probability row, ctc the CTC prefix score of prefix + token.
rlog and rpow stand for torch.log and math.pow inside the GNMT penalties. -/
structure Oracle where
  att : List ℕ → List ℚ
  aw : List ℕ → List ℚ
  lm : List ℕ → List ℚ
  ctc : List ℕ → ℕ → ℚ
  rlog : ℚ → ℚ
  rpow : ℚ → ℚ → ℚ

/-- One beam hypothesis, mirroring the dict built in beam_search: token
sequence (starting with <sos>), total fused score and its stored
decomposition, attention weight history, a proxy for the decoder/LM state
(the utterance index together with the prefix that produced the state), and
the streaming no_boundary flag. -/
structure Hyp where
  hyp : List ℕ
  score : ℚ := 0
  score_att : ℚ := 0
  score_cp : ℚ := 0
  score_ctc : ℚ := 0
  score_lm : ℚ := 0
  aws : List (List ℚ) := []
  dstate : ℕ × List ℕ := (0, [])
  no_boundary : Bool := false
deriving DecidableEq

instance : Inhabited Hyp := ⟨{ hyp := [] }⟩

/-- Stable descending-by-score insertion, matching Python's stable sorted
with reverse=True. -/
def insertDesc (h : Hyp) : List Hyp → List Hyp
  | [] => [h]
  | a :: t => if h.score > a.score then h :: a :: t else a :: insertDesc h t

/-- Stable sort of hypotheses by decreasing score. -/
def sortScoreDesc (l : List Hyp) : List Hyp :=
  l.foldl (fun acc h => insertDesc h acc) []

/-! ## Per-step candidate construction (beam_search, lines 1190-1283) -/

/-- Row of cumulative attention scores: the hypothesis's accumulated
attention score plus the per-token attention scores. -/
def shifted (c : ℚ) (s : List ℚ) : List ℚ := s.map (fun x => c + x)

/-- Scale every entry of a row. -/
def scaled (c : ℚ) (s : List ℚ) : List ℚ := s.map (fun x => x * c)

/-- total_scores = total_scores_att * (1 - ctc_weight). -/
def step_total_scores (P : BSParams) (beam : Hyp) (s : List ℚ) : List ℚ :=
  scaled (1 - P.ctcWeight) (shifted beam.score_att s)

/-- The top-k selection performed before any non-attention score source is
added (total_scores_topk, topk_ids = torch.topk(total_scores, ...)). -/
def step_topk_ids (P : BSParams) (beam : Hyp) (s : List ℚ) : List ℕ :=
  topkIndices P.beamWidth (step_total_scores P beam s)

/-- len(beam['hyp'][1:]): generated tokens of a hypothesis, without <sos>. -/
def plen (beam : Hyp) : ℕ := beam.hyp.length - 1

/-- Cumulative LM score of a candidate (zero when no first-pass LM). -/
def lm_val (P : BSParams) (o : Oracle) (beam : Hyp) (idx : ℕ) : ℚ :=
  if P.hasLM then beam.score_lm + (o.lm beam.hyp).getD idx 0 else 0

/-- Modelled from the spec: the CTC prefix score delivered by the
beam-bookkeeping collaborator's add_ctc_score (beam_search.py and ctc.py are
not part of the given sources).  The collaborator returns, per selected
candidate id, the cumulative CTC prefix score of prefix + id, and leaves the
scores untouched when no scorer is configured. -/
def ctc_val (P : BSParams) (o : Oracle) (beam : Hyp) (idx : ℕ) : ℚ :=
  if P.hasCtc then o.ctc beam.hyp idx else 0

/-- Sum of all entries of the attention-weight history matrix. -/
def totalSum (rows : List (List ℚ)) : ℚ := (rows.map List.sum).sum

/-- Sum of entries strictly above the coverage threshold. -/
def clippedSum (thr : ℚ) (rows : List (List ℚ)) : ℚ :=
  (rows.map (fun r => (r.filter (fun x => thr < x)).sum)).sum

/-- GNMT-style coverage: sum of the negative logs of the per-step attention
mass. -/
def gnmtCov (rlog : ℚ → ℚ) (rows : List (List ℚ)) : ℚ :=
  (rows.map (fun r => if rlog r.sum < 0 then rlog r.sum else 0)).sum

/-- Coverage penalty recomputed at each step from the attention history. -/
def covPenalty (P : BSParams) (o : Oracle) (rows : List (List ℚ)) : ℚ :=
  if P.gnmt then gnmtCov o.rlog rows
  else if P.cpThreshold = 0 then totalSum rows / P.nHeads
  else clippedSum P.cpThreshold rows / P.nHeads

/-- cp as computed in the step (zero unless cp_weight > 0). -/
def step_cp (P : BSParams) (o : Oracle) (beam : Hyp) (aw_j : List ℚ) : ℚ :=
  if 0 < P.cpWeight then covPenalty P o (beam.aws ++ [aw_j]) else 0

/-- Fused score of a selected candidate, applying the score sources in the
order of the source: attention (already scaled by 1 - ctc_weight), LM,
length penalty (GNMT division or additive), coverage, CTC. -/
def fused_score (P : BSParams) (o : Oracle) (beam : Hyp) (s : List ℚ) (cp : ℚ)
    (idx : ℕ) : ℚ :=
  let a2 := (step_total_scores P beam s).getD idx 0 + lm_val P o beam idx * P.lmWeight
  let a3 := if 0 < P.lpWeight then
      (if P.gnmt then
        a2 / (o.rpow ((6 : ℚ) + (plen beam : ℚ)) P.lpWeight / o.rpow 6 P.lpWeight)
      else a2 + ((plen beam : ℚ) + 1) * P.lpWeight)
    else a2
  let a4 := if 0 < P.cpWeight then a3 + cp * P.cpWeight else a3
  a4 + ctc_val P o beam idx * P.ctcWeight

/-- The two <eos> admission checks of beam_search: minimum length ratio and
the <eos> threshold against the best non-<eos> attention score. -/
def eos_ok (P : BSParams) (elens : ℕ) (beam : Hyp) (s : List ℚ) (idx : ℕ) : Bool :=
  if idx = P.eosTok then
    if (plen beam : ℚ) < (elens : ℚ) * P.min_len_ratio then false
    else decide (P.eosThreshold * maxExcept s idx < s.getD idx 0)
  else true

/-- Build the new hypothesis record for a selected candidate, with the stored
score decomposition, exactly as pushed onto new_hyps. -/
def mk_cand (P : BSParams) (o : Oracle) (b : ℕ) (beam : Hyp) (s aw_j : List ℚ)
    (cp fused : ℚ) (idx : ℕ) : Hyp :=
  { hyp := beam.hyp ++ [idx],
    score := fused / (if P.lengthNorm then (plen beam : ℚ) + 1 else 1),
    score_att := (shifted beam.score_att s).getD idx 0,
    score_cp := cp,
    score_ctc := ctc_val P o beam idx,
    score_lm := lm_val P o beam idx,
    aws := beam.aws ++ [aw_j],
    dstate := (b, beam.hyp),
    no_boundary := false }

/-- All candidates contributed by one active hypothesis at one step of
batch beam search. -/
def beam_step_cands (P : BSParams) (o : Oracle) (b elens : ℕ) (beam : Hyp) :
    List Hyp :=
  (step_topk_ids P beam (o.att beam.hyp)).filterMap (fun idx =>
    if eos_ok P elens beam (o.att beam.hyp) idx then
      some (mk_cand P o b beam (o.att beam.hyp) (o.aw beam.hyp)
        (step_cp P o beam (o.aw beam.hyp))
        (fused_score P o beam (o.att beam.hyp) (step_cp P o beam (o.aw beam.hyp)) idx)
        idx)
    else none)

/-- Modelled from the spec: the beam-bookkeeping collaborator's
remove_complete_hyp (beam_search.py is not part of the given sources).  It
moves candidates that end with <eos> into the completed set and reports
completion once every active hypothesis has completed. -/
def remove_complete_hyp (eosTok : ℕ) (cands endHyps : List Hyp) :
    List Hyp × List Hyp × Bool :=
  let fin := cands.filter (fun h => decide (h.hyp.getLast? = some eosTok))
  let act := cands.filter (fun h => !(decide (h.hyp.getLast? = some eosTok)))
  (act, endHyps ++ fin, act.isEmpty)

/-! ## The per-utterance beam-search loop (lines 1113-1292) -/

structure BeamState where
  hyps : List Hyp
  endHyps : List Hyp
  steps : ℕ
  finished : Bool
deriving DecidableEq

/-- One iteration of the per-utterance loop: expand every active hypothesis,
prune to the beam width, separate completed hypotheses.  An exhausted beam
(every candidate filtered out at the previous step) makes no further
progress: the source would raise on the empty torch.cat at the top of the
next iteration, so no state beyond this point is ever observed there, and
the iteration is embedded as a no-op. -/
def beam_iter (P : BSParams) (o : Oracle) (b elens : ℕ) (st : BeamState) :
    BeamState :=
  if st.finished ∨ st.hyps.isEmpty then st
  else
    let cands := st.hyps.flatMap (beam_step_cands P o b elens)
    let pruned := (sortScoreDesc cands).take P.beamWidth
    let r := remove_complete_hyp P.eosTok pruned st.endHyps
    { hyps := r.1, endHyps := r.2.1, steps := st.steps + 1, finished := r.2.2 }

/-- Fuel-bounded loop: for t in range(ymax). -/
def beam_loop (P : BSParams) (o : Oracle) (b elens : ℕ) :
    ℕ → BeamState → BeamState
  | 0, st => st
  | n + 1, st => beam_loop P o b elens n (beam_iter P o b elens st)

/-- ymax = int(math.floor(length * max_len_ratio)) + 1, as a loop bound. -/
def ymaxOf (n : ℕ) (r : ℚ) : ℕ := (⌊(n : ℚ) * r⌋ + 1).toNat

/-- The initial hypothesis of an utterance. -/
def init_hyp (P : BSParams) (b : ℕ) : Hyp := { hyp := [P.eosTok], dstate := (b, []) }

/-- Global pruning after the loop: fall back to the live beam when nothing
completed, backfill up to nbest when requested. -/
def backfill (P : BSParams) (st : BeamState) : List Hyp :=
  if st.endHyps.isEmpty then st.hyps
  else if st.endHyps.length < P.nbest ∧ 1 < P.nbest then
    st.endHyps ++ st.hyps.take (P.nbest - st.endHyps.length)
  else st.endHyps

/-- Final loop state of the per-utterance beam search. -/
def beam_search_final (P : BSParams) (o : Oracle) (b elens : ℕ) : BeamState :=
  beam_loop P o b elens (ymaxOf elens P.max_len_ratio)
    { hyps := [init_hyp P b], endHyps := [], steps := 0, finished := false }

/-- Per-utterance beam search: the final loop state together with the sorted
completed list the N-best is read from. -/
def beam_search_utt (P : BSParams) (o : Oracle) (b elens : ℕ) :
    BeamState × List Hyp :=
  (beam_search_final P o b elens,
   sortScoreDesc (backfill P (beam_search_final P o b elens)))

/-- The returned token sequences (hyp without the leading <sos>). -/
def beam_search_tokens (P : BSParams) (o : Oracle) (b elens : ℕ) : List (List ℕ) :=
  ((beam_search_utt P o b elens).2.take P.nbest).map (fun h => h.hyp.drop 1)

/-- beam_search's entry assertion 1 <= nbest <= beam_width, placed before the
decoding loop; a Python assert carries no message, hence the Unit error. -/
def beam_search_checked (P : BSParams) (o : Oracle) (b elens : ℕ) :
    Except Unit (List (List ℕ)) :=
  if 1 ≤ P.nbest ∧ P.nbest ≤ P.beamWidth then Except.ok (beam_search_tokens P o b elens)
  else Except.error ()

/-! ## The greedy decoder (lines 857-979), projected to one batch item

In a batch, each item's scores are a function of its own prefix (the batched
tensor ops act row-wise), items that already emitted <eos> are truncated at
it, and the loop cap comes from the padded length xmax of the whole batch;
so the per-item behaviour is that of this single-item loop with cap
ymaxOf xmax max_len_ratio. -/

structure GreedyState where
  toks : List ℕ
  steps : ℕ
  finished : Bool
deriving DecidableEq

/-- One greedy step: argmax feedback, stop once <eos> is produced. -/
def greedy_iter (o : Oracle) (eosTok : ℕ) (st : GreedyState) : GreedyState :=
  if st.finished then st
  else
    let idx := argmaxIdx (o.att (eosTok :: st.toks))
    { toks := st.toks ++ [idx], steps := st.steps + 1, finished := idx = eosTok }

def greedy_loop (o : Oracle) (eosTok : ℕ) : ℕ → GreedyState → GreedyState
  | 0, st => st
  | n + 1, st => greedy_loop o eosTok n (greedy_iter o eosTok st)

/-- Greedy decoding of one item: xmax is the padded encoder length of the
batch. -/
def greedy_run (o : Oracle) (eosTok xmax : ℕ) (r : ℚ) : GreedyState :=
  greedy_loop o eosTok (ymaxOf xmax r) { toks := [], steps := 0, finished := false }

/-- The token sequence greedy returns for the item (truncated at the first
<eos>, inclusive). -/
def greedy_tokens (o : Oracle) (eosTok xmax : ℕ) (r : ℚ) : List ℕ :=
  (greedy_run o eosTok xmax r).toks

/-! ## Chunk-synchronous beam search (lines 1379-1599) -/

/-- A zero attention-weight row over the current chunk. -/
def zero_aw (chunkT : ℕ) : List ℚ := List.replicate chunkT 0

/-- The hypothesis re-flagged no_boundary, with its last attention row
replaced by zeros (beam['aws'][-1] = zeros; at the first step the slot holds
the None placeholder, which this embedding does not store). -/
def flag_nobd (chunkT : ℕ) (beam : Hyp) : Hyp :=
  { beam with
    no_boundary := true
    aws := if beam.aws.isEmpty then [zero_aw chunkT]
           else beam.aws.dropLast ++ [zero_aw chunkT] }

/-- Fused candidate score in the chunk-synchronous step: attention (scaled
by 1 - ctc_weight), LM, unconditional additive length penalty, CTC. -/
def fused_chunk (P : BSParams) (o : Oracle) (beam : Hyp) (s : List ℚ) (idx : ℕ) : ℚ :=
  (step_total_scores P beam s).getD idx 0 + lm_val P o beam idx * P.lmWeight
    + ((plen beam : ℚ) + 1) * P.lpWeight + ctc_val P o beam idx * P.ctcWeight

/-- New hypothesis record pushed by the chunk-synchronous step (it stores no
coverage component; the dict has no score_cp key, embedded as 0). -/
def chunk_mk_cand (P : BSParams) (o : Oracle) (beam : Hyp) (s aw_j : List ℚ)
    (idx : ℕ) (nb : Bool) : Hyp :=
  { hyp := beam.hyp ++ [idx],
    score := (fused_chunk P o beam s idx) /
      (if P.lengthNorm then (plen beam : ℚ) + 1 else 1),
    score_att := (shifted beam.score_att s).getD idx 0,
    score_cp := 0,
    score_ctc := ctc_val P o beam idx,
    score_lm := lm_val P o beam idx,
    aws := beam.aws ++ [aw_j],
    dstate := (0, beam.hyp),
    no_boundary := nb }

/-- All entries this hypothesis contributes to new_hyps at one chunk step:
the re-flagged copy when the attention mass is zero, then the surviving
continuations of the top-k selection (non-<eos> continuations suppressed for
a no-boundary hypothesis; the length penalty here is always additive). -/
def chunk_step_cands (P : BSParams) (o : Oracle) (chunkT : ℕ) (beam : Hyp) :
    List Hyp :=
  (if (o.aw beam.hyp).sum = 0 then [flag_nobd chunkT beam] else []) ++
  (step_topk_ids P beam (o.att beam.hyp)).flatMap (fun idx =>
    if (o.aw beam.hyp).sum = 0 ∧ idx ≠ P.eosTok then []
    else if idx = P.eosTok ∧ P.ignoreEos then [flag_nobd chunkT beam]
    else if idx = P.eosTok ∧ ¬ P.eosThreshold * maxExcept (o.att beam.hyp) idx
        < (o.att beam.hyp).getD idx 0 then []
    else [chunk_mk_cand P o beam (o.att beam.hyp) (o.aw beam.hyp) idx
        (decide ((o.aw beam.hyp).sum = 0))])

structure ChunkState where
  t : ℕ
  hyps : List Hyp
  endHyps : List Hyp
  hypsNobd : List Hyp
  steps : ℕ
  finished : Bool
deriving DecidableEq

/-- new_hyps of one chunk step: hypotheses already flagged no_boundary are
set aside unexpanded, the rest are expanded. -/
def chunk_step (P : BSParams) (o : Oracle) (chunkT : ℕ) (hyps : List Hyp) :
    List Hyp :=
  hyps.filter (fun h => h.no_boundary)
    ++ (hyps.filter (fun h => !h.no_boundary)).flatMap (chunk_step_cands P o chunkT)

/-- One iteration of the chunk-synchronous loop, with its three break
conditions (empty beam, all hypotheses already flagged at t > 0, nothing to
expand after setting flagged hypotheses aside). -/
def chunk_iter (P : BSParams) (o : Oracle) (chunkT : ℕ) (st : ChunkState) :
    ChunkState :=
  if st.finished then st
  else if st.hyps.isEmpty then { st with finished := true }
  else if 0 < st.t ∧ st.hyps.all (fun h => h.no_boundary) then { st with finished := true }
  else if (st.hyps.filter (fun h => !h.no_boundary)).isEmpty then { st with finished := true }
  else
    { t := st.t + 1,
      hyps := (remove_complete_hyp P.eosTok
        ((sortScoreDesc (chunk_step P o chunkT st.hyps)).take P.beamWidth) st.endHyps).1,
      endHyps := (remove_complete_hyp P.eosTok
        ((sortScoreDesc (chunk_step P o chunkT st.hyps)).take P.beamWidth) st.endHyps).2.1,
      hypsNobd := st.hypsNobd ++
        ((sortScoreDesc (chunk_step P o chunkT st.hyps)).drop P.beamWidth).filter
          (fun h => h.no_boundary),
      steps := st.steps + 1,
      finished := (remove_complete_hyp P.eosTok
        ((sortScoreDesc (chunk_step P o chunkT st.hyps)).take P.beamWidth) st.endHyps).2.2 }

def chunk_loop (P : BSParams) (o : Oracle) (chunkT : ℕ) :
    ℕ → ChunkState → ChunkState
  | 0, st => st
  | n + 1, st => chunk_loop P o chunkT n (chunk_iter P o chunkT st)

/-- The cross-call beam at the start of a chunk call: fresh at the first
chunk, otherwise the carried hypotheses with no_boundary cleared. -/
def chunk_init_hyps (P : BSParams) (hyps0 : Option (List Hyp)) : List Hyp :=
  match hyps0 with
  | none => [init_hyp P 0]
  | some hs => hs.map (fun h => { h with no_boundary := false })

/-- Final loop state of one beam_search_chunk_sync call. -/
def chunk_sync_final (P : BSParams) (o : Oracle) (chunkT : ℕ)
    (hyps0 : Option (List Hyp)) : ChunkState :=
  chunk_loop P o chunkT (ymaxOf chunkT P.max_len_ratio)
    { t := 0, hyps := chunk_init_hyps P hyps0, endHyps := [], hypsNobd := [],
      steps := 0, finished := false }

/-- One call of beam_search_chunk_sync: reset or carry the cross-call beam,
run the chunk loop, merge the no-boundary side list back, and sort the
completed set.  Returns (end_hyps, hyps, final loop state). -/
def beam_search_chunk_sync (P : BSParams) (o : Oracle) (chunkT : ℕ)
    (hyps0 : Option (List Hyp)) : List Hyp × List Hyp × ChunkState :=
  (sortScoreDesc (chunk_sync_final P o chunkT hyps0).endHyps,
   ((chunk_sync_final P o chunkT hyps0).hyps
     ++ sortScoreDesc (chunk_sync_final P o chunkT hyps0).hypsNobd).take P.beamWidth,
   chunk_sync_final P o chunkT hyps0)

/-! ## The batch loop of beam_search with its carry-over writes
(lines 1050-1094 and 1361-1376)

The speaker-keyed carry-over state dstates_final / lmstate_final is reset to
None inside the per-utterance loop on speaker change, and written once after
the loop from the top-scored hypothesis of the last utterance.  The writes
are counted; the state proxies are the (utterance index, prefix) pairs that
determine the stored tensors. -/

structure BatchState where
  prevSpk : Option ℕ
  dstatesFinal : Option (ℕ × List ℕ)
  lmstateFinal : Option (ℕ × List ℕ)
  dWrites : ℕ
  lmWrites : ℕ
deriving DecidableEq

/-- The speaker-change reset at the top of the per-utterance loop
(self.prev_spk starts as the empty string, modelled by none). -/
def speaker_reset (speakers : Option (List ℕ)) (b : ℕ) (st : BatchState) :
    BatchState :=
  match speakers with
  | none => st
  | some sp =>
    if st.prevSpk = some (sp.getD b 0) then st
    else
      { prevSpk := some (sp.getD b 0), dstatesFinal := none, lmstateFinal := none,
        dWrites := st.dWrites + 1, lmWrites := st.lmWrites + 1 }

/-- The full batch loop: per utterance, maybe reset carry-over, decode, keep
the end_hyps variable of the last utterance; after the loop write the final
states from its top hypothesis (lmstate_final only when a first-pass RNNLM
is in use). -/
def batch_fold (P : BSParams) (os : ℕ → Oracle) (elens : ℕ → ℕ)
    (speakers : Option (List ℕ)) (bs : ℕ) : BatchState × List Hyp :=
  (List.range bs).foldl
    (fun acc b => (speaker_reset speakers b acc.1, (beam_search_utt P (os b) b (elens b)).2))
    (⟨none, none, none, 0, 0⟩, [])

def beam_search_batch (P : BSParams) (os : ℕ → Oracle) (elens : ℕ → ℕ)
    (speakers : Option (List ℕ)) (bs : ℕ) : BatchState :=
  { (batch_fold P os elens speakers bs).1 with
    dstatesFinal := some (batch_fold P os elens speakers bs).2.headI.dstate
    dWrites := (batch_fold P os elens speakers bs).1.dWrites + 1
    lmstateFinal := if P.hasLM then some (batch_fold P os elens speakers bs).2.headI.dstate
      else (batch_fold P os elens speakers bs).1.lmstateFinal
    lmWrites := if P.hasLM then (batch_fold P os elens speakers bs).1.lmWrites + 1
      else (batch_fold P os elens speakers bs).1.lmWrites }

/-! ## MBR training arithmetic (forward, lines 443-452) -/

/-- exp_wer_b = (scores_b_norm * wers_b).sum(). -/
def exp_wer (ws wers : List ℚ) : ℚ := ((ws.zip wers).map (fun p => p.1 * p.2)).sum

/-- grad_b = (scores_b_norm * (wers_b - exp_wer_b)).sum(). -/
def mbr_grad (ws wers : List ℚ) : ℚ :=
  ((ws.zip wers).map (fun p => p.1 * (p.2 - exp_wer ws wers))).sum

/-! ## RNNDecoder construction-time validation (init, lines 116-298)

Embeds the validation control flow of the constructor: the asserts and
ValueErrors it can raise, in source order, over the configuration fields
they read.  nbest and beam width are not constructor inputs; they only reach
the decoder through the params dict of a beam_search call. -/

inductive InitError
  | badRnnType
  | badCtcTriggerWeight
  | mochaHeads
  | multiheadAttnType
  | badLmFusion
  | badBottleneck
  | tieDim
deriving DecidableEq

structure DecConfig where
  rnn_type : String
  attn_type : String
  attn_n_heads : ℕ
  ctc_weight : ℚ
  global_weight : ℚ
  latency_metric : String
  lm_fusion : Option String
  has_external_lm : Bool
  bottleneck_dim : ℕ
  emb_dim : ℕ
  tie_embedding : Bool

def rnn_decoder_init_check (c : DecConfig) : Except InitError Unit :=
  if ¬ (c.rnn_type = "lstm" ∨ c.rnn_type = "gru") then Except.error InitError.badRnnType
  else if (c.latency_metric = "ctc_sync" ∨ c.latency_metric = "ctc_dal" ∨
           c.attn_type = "triggered_attention") ∧
          ¬ (0 < c.ctc_weight ∧ c.ctc_weight < 1) then
    Except.error InitError.badCtcTriggerWeight
  else if 0 < c.global_weight - c.ctc_weight then
    if c.attn_type = "mocha" ∧ c.attn_n_heads ≠ 1 then Except.error InitError.mochaHeads
    else if 1 < c.attn_n_heads ∧ c.attn_type ≠ "mocha" ∧ c.attn_type ≠ "gmm" ∧
            c.attn_type ≠ "add" then Except.error InitError.multiheadAttnType
    else if c.has_external_lm ∧ c.lm_fusion.isSome ∧
            ¬ (c.lm_fusion = some "cold" ∨ c.lm_fusion = some "deep" ∨
               c.lm_fusion = some "cold_prob") then Except.error InitError.badLmFusion
    else if c.bottleneck_dim = 0 then Except.error InitError.badBottleneck
    else if c.tie_embedding ∧ c.emb_dim ≠ c.bottleneck_dim then Except.error InitError.tieDim
    else Except.ok ()
  else Except.ok ()

/-! ## Switchboard CER/WER evaluation (src/examples/swbd/metrics/cer.py)

The per-utterance reference word lists are the split transcripts; markers
are blanked and then all empty words removed.  The per-utterance CER/WER
values produced by the prediction pipeline and compute_cer / compute_wer
(both external to the given sources) are oracles indexed by utterance. -/

def NOISE : String := "NZ"
def LAUGHTER : String := "LA"
def VOCALIZED_NOISE : String := "VN"
def HESITATION : String := "%hesitation"

/-- word_list_true after blanking NOISE / LAUGHTER / VOCALIZED_NOISE /
HESITATION and removing every empty word. -/
def filter_ref_words (ws : List String) : List String :=
  ws.filter (fun w =>
    !(w == "" || w == NOISE || w == LAUGHTER || w == VOCALIZED_NOISE || w == HESITATION))

/-- The accumulation loop of do_eval_cer: cer_mean and wer_mean grow only
for utterances whose filtered reference is nonempty, skip_utt_num counts the
others. -/
def cer_acc (refs : List (List String)) (wer cer : ℕ → ℚ) : ℚ × ℚ × ℕ :=
  refs.enum.foldl
    (fun (a : ℚ × ℚ × ℕ) p =>
      if 0 < (filter_ref_words p.2).length then
        (a.1 + cer p.1, a.2.1 + wer p.1, a.2.2)
      else (a.1, a.2.1, a.2.2 + 1))
    (0, 0, 0)

/-- do_eval_cer: after the loop both means are divided by (number of
utterances - skipped), a Python ZeroDivisionError when that difference is
zero. -/
def do_eval_cer (refs : List (List String)) (wer cer : ℕ → ℚ) :
    Except Unit (ℚ × ℚ) :=
  if refs.length - (cer_acc refs wer cer).2.2 = 0 then Except.error ()
  else Except.ok
    ((cer_acc refs wer cer).1 / ((refs.length - (cer_acc refs wer cer).2.2 : ℕ) : ℚ),
     (cer_acc refs wer cer).2.1 / ((refs.length - (cer_acc refs wer cer).2.2 : ℕ) : ℚ))

/-! ## Selection lemmas: torch.topk / torch.argmax under monotone maps -/

lemma foldl_max_map (f : ℚ → ℚ) (hf : ∀ a b : ℚ, a < b ↔ f a < f b) :
    ∀ (l : List (ℕ × ℚ)) (a : ℕ × ℚ),
      (l.map (mapSnd f)).foldl (fun q r => if r.2 > q.2 then r else q) (mapSnd f a)
        = mapSnd f (l.foldl (fun q r => if r.2 > q.2 then r else q) a) := by
  intro l
  induction l with
  | nil => intro a; rfl
  | cons p t ih =>
    intro a
    have hstep : (if (mapSnd f p).2 > (mapSnd f a).2 then mapSnd f p else mapSnd f a)
        = mapSnd f (if p.2 > a.2 then p else a) := by
      by_cases hc : p.2 > a.2
      · have h1 : (mapSnd f p).2 > (mapSnd f a).2 := (hf a.2 p.2).mp hc
        rw [if_pos h1, if_pos hc]
      · have h1 : ¬ (mapSnd f p).2 > (mapSnd f a).2 := fun hlt => hc ((hf a.2 p.2).mpr hlt)
        rw [if_neg h1, if_neg hc]
    simp only [List.map_cons, List.foldl_cons, hstep]
    exact ih _

lemma firstMax_map (f : ℚ → ℚ) (hf : ∀ a b : ℚ, a < b ↔ f a < f b)
    (l : List (ℕ × ℚ)) :
    firstMax (l.map (mapSnd f)) = (firstMax l).map (mapSnd f) := by
  cases l with
  | nil => rfl
  | cons p t =>
    simp only [List.map_cons, firstMax, Option.map_some]
    exact congrArg some (foldl_max_map f hf t p)

lemma filter_fst_map (f : ℚ → ℚ) (q : ℕ → Bool) :
    ∀ l : List (ℕ × ℚ),
      (l.map (mapSnd f)).filter (fun p => q p.1)
        = (l.filter (fun p => q p.1)).map (mapSnd f) := by
  intro l
  induction l with
  | nil => rfl
  | cons p t ih =>
    by_cases hq : q p.1
    · simp [List.filter_cons, mapSnd, hq, ih]
    · simp [List.filter_cons, mapSnd, hq, ih]

lemma topkAux_map (f : ℚ → ℚ) (hf : ∀ a b : ℚ, a < b ↔ f a < f b)
    (l : List (ℕ × ℚ)) :
    ∀ (k : ℕ) (excl : List ℕ),
      topkAux (l.map (mapSnd f)) k excl = topkAux l k excl := by
  intro k
  induction k with
  | zero => intro excl; rfl
  | succ k ih =>
    intro excl
    have hfl := filter_fst_map f (fun i => !(excl.contains i)) l
    simp only [topkAux, hfl, firstMax_map f hf]
    cases firstMax (l.filter (fun p => !(excl.contains p.1))) with
    | none => rfl
    | some m => simp [mapSnd, ih]

lemma enumFrom_map (f : ℚ → ℚ) :
    ∀ (l : List ℚ) (n : ℕ), (l.map f).enumFrom n = (l.enumFrom n).map (mapSnd f) := by
  intro l
  induction l with
  | nil => intro n; rfl
  | cons x t ih =>
    intro n
    simp only [List.map_cons, List.enumFrom, ih, mapSnd]

lemma enum_map_snd (f : ℚ → ℚ) (l : List ℚ) :
    (l.map f).enum = l.enum.map (mapSnd f) := by
  simpa [List.enum] using enumFrom_map f l 0

lemma topkIndices_map (f : ℚ → ℚ) (hf : ∀ a b : ℚ, a < b ↔ f a < f b)
    (k : ℕ) (l : List ℚ) :
    topkIndices k (l.map f) = topkIndices k l := by
  simp only [topkIndices, enum_map_snd f l]
  exact topkAux_map f hf l.enum k []

lemma argmaxIdx_map (f : ℚ → ℚ) (hf : ∀ a b : ℚ, a < b ↔ f a < f b)
    (l : List ℚ) :
    argmaxIdx (l.map f) = argmaxIdx l := by
  simp only [argmaxIdx, enum_map_snd f l, firstMax_map f hf]
  cases firstMax l.enum with
  | none => rfl
  | some m => rfl

lemma topkIndices_one (l : List ℚ) (h : l ≠ []) :
    topkIndices 1 l = [argmaxIdx l] := by
  have hfl : l.enum.filter (fun p => !(List.contains ([] : List ℕ) p.1)) = l.enum := by
    simp [List.contains]
  cases l with
  | nil => exact absurd rfl h
  | cons x t =>
    simp only [topkIndices, topkAux, hfl]
    simp [firstMax, argmaxIdx, List.enum_cons, topkAux]

/-! ## Membership and length lemmas for sorting and pruning -/

lemma mem_insertDesc {a h : Hyp} : ∀ {l : List Hyp}, a ∈ insertDesc h l ↔ a = h ∨ a ∈ l := by
  intro l
  induction l with
  | nil => simp [insertDesc]
  | cons x t ih =>
    by_cases hc : h.score > x.score
    · simp [insertDesc, hc]
    · simp only [insertDesc, if_neg hc, List.mem_cons, ih]
      tauto

lemma mem_sortScoreDesc_aux {a : Hyp} :
    ∀ (l acc : List Hyp),
      (a ∈ l.foldl (fun acc h => insertDesc h acc) acc ↔ a ∈ l ∨ a ∈ acc) := by
  intro l
  induction l with
  | nil => intro acc; simp
  | cons x t ih =>
    intro acc
    simp only [List.foldl_cons, ih, mem_insertDesc, List.mem_cons]
    tauto

lemma mem_sortScoreDesc {a : Hyp} {l : List Hyp} :
    a ∈ sortScoreDesc l ↔ a ∈ l := by
  simpa [sortScoreDesc] using mem_sortScoreDesc_aux l []

/-! ## Claim C1: active beam width never exceeds beam_width after pruning -/

lemma beam_iter_width (P : BSParams) (o : Oracle) (b elens : ℕ) (st : BeamState)
    (h : st.hyps.length ≤ P.beamWidth) :
    (beam_iter P o b elens st).hyps.length ≤ P.beamWidth := by
  unfold beam_iter
  split
  · exact h
  · simp only [remove_complete_hyp]
    exact le_trans (List.length_filter_le _ _) (le_trans (List.length_take_le _ _) le_rfl)

lemma beam_loop_width (P : BSParams) (o : Oracle) (b elens : ℕ) :
    ∀ (n : ℕ) (st : BeamState), st.hyps.length ≤ P.beamWidth →
      (beam_loop P o b elens n st).hyps.length ≤ P.beamWidth := by
  intro n
  induction n with
  | zero => intro st h; exact h
  | succ n ih => intro st h; exact ih _ (beam_iter_width P o b elens st h)

lemma chunk_iter_width (P : BSParams) (o : Oracle) (chunkT : ℕ) (st : ChunkState)
    (h : st.hyps.length ≤ P.beamWidth) :
    (chunk_iter P o chunkT st).hyps.length ≤ P.beamWidth := by
  unfold chunk_iter
  split
  · exact h
  split
  · exact h
  split
  · exact h
  split
  · exact h
  · simp only [remove_complete_hyp]
    exact le_trans (List.length_filter_le _ _) (List.length_take_le _ _)

lemma chunk_iter_steps (P : BSParams) (o : Oracle) (chunkT : ℕ) (st : ChunkState) :
    (chunk_iter P o chunkT st).steps ≤ st.steps + 1 := by
  unfold chunk_iter
  split
  · exact Nat.le_add_right _ _
  split
  · exact Nat.le_add_right _ _
  split
  · exact Nat.le_add_right _ _
  split
  · exact Nat.le_add_right _ _
  · exact le_rfl

/-- Claim C1: in both batch beam search and chunk-synchronous streaming beam
search, after the pruning of every decoding time step the list of active
hypotheses holds at most beam_width elements. -/
theorem active_beam_bounded (P : BSParams) (o oc : Oracle) (b elens n chunkT : ℕ)
    (cst : ChunkState) (h1 : 1 ≤ P.beamWidth) (h2 : cst.hyps.length ≤ P.beamWidth) :
    (beam_loop P o b elens n
      { hyps := [init_hyp P b], endHyps := [], steps := 0, finished := false }).hyps.length
        ≤ P.beamWidth
    ∧ (chunk_iter P oc chunkT cst).hyps.length ≤ P.beamWidth := by
  constructor
  · exact beam_loop_width P o b elens n _ (by simpa using h1)
  · exact chunk_iter_width P oc chunkT cst h2

/-- A small concrete configuration used by witnesses: beam width 2,
vocabulary of three tokens with <eos> = 0. -/
def testP : BSParams where
  beamWidth := 2
  nbest := 1
  eosTok := 0
  ctcWeight := 0
  max_len_ratio := 1
  min_len_ratio := 0
  lpWeight := 0
  cpWeight := 0
  cpThreshold := 0
  lengthNorm := false
  lmWeight := 0
  gnmt := false
  eosThreshold := 1
  hasLM := false
  hasCtc := false
  nHeads := 1
  ignoreEos := false

/-- A concrete oracle: token 1 is always the best continuation. -/
def testO : Oracle where
  att := fun _ => [-3, -1, -2]
  aw := fun _ => [1]
  lm := fun _ => [0, 0, 0]
  ctc := fun _ _ => 0
  rlog := fun _ => 0
  rpow := fun _ _ => 0

/-- Witness for active_beam_bounded at a concrete configuration. -/
theorem active_beam_bounded_witness :
    (beam_loop testP testO 0 2 3
      { hyps := [init_hyp testP 0], endHyps := [], steps := 0,
        finished := false }).hyps.length ≤ testP.beamWidth
    ∧ (chunk_iter testP testO 1
      { t := 0, hyps := [], endHyps := [], hypsNobd := [], steps := 0,
        finished := false }).hyps.length ≤ testP.beamWidth :=
  active_beam_bounded testP testO testO 0 2 3 1 _ (by decide) (by decide)

/-! ## Claim C5: every decoding loop runs at most floor(len * ratio) + 1 steps -/

lemma beam_loop_steps (P : BSParams) (o : Oracle) (b elens : ℕ) :
    ∀ (n : ℕ) (st : BeamState), (beam_loop P o b elens n st).steps ≤ st.steps + n := by
  intro n
  induction n with
  | zero => intro st; exact Nat.le_add_right _ _
  | succ n ih =>
    intro st
    refine le_trans (ih _) ?_
    have : (beam_iter P o b elens st).steps ≤ st.steps + 1 := by
      unfold beam_iter; split
      · exact Nat.le_add_right _ _
      · exact le_rfl
    omega

lemma greedy_loop_steps (o : Oracle) (eosTok : ℕ) :
    ∀ (n : ℕ) (st : GreedyState), (greedy_loop o eosTok n st).steps ≤ st.steps + n := by
  intro n
  induction n with
  | zero => intro st; exact Nat.le_add_right _ _
  | succ n ih =>
    intro st
    refine le_trans (ih _) ?_
    have : (greedy_iter o eosTok st).steps ≤ st.steps + 1 := by
      unfold greedy_iter; split
      · exact Nat.le_add_right _ _
      · exact le_rfl
    omega

lemma chunk_loop_steps (P : BSParams) (o : Oracle) (chunkT : ℕ) :
    ∀ (n : ℕ) (st : ChunkState), (chunk_loop P o chunkT n st).steps ≤ st.steps + n := by
  intro n
  induction n with
  | zero => intro st; exact Nat.le_add_right _ _
  | succ n ih =>
    intro st
    refine le_trans (ih _) ?_
    have := chunk_iter_steps P o chunkT st
    omega

/-- Claim C5: greedy decoding, per-utterance batch beam search and per-chunk
streaming beam search each execute at most floor(length * max_len_ratio) + 1
decoding time steps, and hence terminate. -/
theorem decode_step_ceiling (P : BSParams) (o : Oracle) (b elens xmax chunkT : ℕ)
    (hyps0 : Option (List Hyp)) :
    (beam_search_utt P o b elens).1.steps ≤ (⌊(elens : ℚ) * P.max_len_ratio⌋ + 1).toNat
    ∧ (greedy_run o P.eosTok xmax P.max_len_ratio).steps
        ≤ (⌊(xmax : ℚ) * P.max_len_ratio⌋ + 1).toNat
    ∧ (beam_search_chunk_sync P o chunkT hyps0).2.2.steps
        ≤ (⌊(chunkT : ℚ) * P.max_len_ratio⌋ + 1).toNat := by
  refine ⟨?_, ?_, ?_⟩
  · simpa [beam_search_utt, beam_search_final, ymaxOf] using
      beam_loop_steps P o b elens (ymaxOf elens P.max_len_ratio)
        { hyps := [init_hyp P b], endHyps := [], steps := 0, finished := false }
  · simpa [greedy_run, ymaxOf] using
      greedy_loop_steps o P.eosTok (ymaxOf xmax P.max_len_ratio)
        { toks := [], steps := 0, finished := false }
  · simpa [beam_search_chunk_sync, chunk_sync_final, ymaxOf] using
      chunk_loop_steps P o chunkT (ymaxOf chunkT P.max_len_ratio)
        { t := 0, hyps := chunk_init_hyps P hyps0, endHyps := [], hypsNobd := [],
          steps := 0, finished := false }

/-- Oracle whose best continuation is always <eos> (token 0). -/
def testOEos : Oracle where
  att := fun _ => [-1, -2, -3]
  aw := fun _ => [1]
  lm := fun _ => [0, 0, 0]
  ctc := fun _ _ => 0
  rlog := fun _ => 0
  rpow := fun _ _ => 0

example : beam_search_tokens { testP with beamWidth := 1 } testO 0 2 = [[1, 1, 1]] := by decide
example : greedy_tokens testO 0 2 1 = [1, 1, 1] := by decide
example : beam_search_tokens { testP with beamWidth := 1 } testOEos 0 2 = [[0]] := by decide
example : greedy_tokens testOEos 0 2 1 = [0] := by decide
example : beam_search_tokens testP testO 0 2 = [[1, 1, 1]] := by decide

/-! ## Claim C7: MBR expected word error rate and gradient term -/

lemma zip_fun_sum (f : ℚ → ℚ → ℚ) :
    ∀ (ws wers : List ℚ), ws.length = wers.length →
      ((ws.zip wers).map (fun p => f p.1 p.2)).sum
        = ∑ i ∈ Finset.range ws.length, f (ws.getD i 0) (wers.getD i 0) := by
  intro ws
  induction ws with
  | nil => intro wers h; simp
  | cons a tl ih =>
    intro wers h
    cases wers with
    | nil => simp at h
    | cons b tl2 =>
      simp only [List.zip_cons_cons, List.map_cons, List.sum_cons, List.length_cons]
      rw [Finset.sum_range_succ']
      simp only [List.getD_cons_succ, List.getD_cons_zero]
      rw [ih tl2 (by simpa using h)]
      ring

/-- Claim C7: per batch item, the expected WER is the inner product of the
softmax-normalized hypothesis weights with the per-hypothesis WERs, the
gradient term is the sum of weight times (WER minus expected WER), and on
WERs [0.0, 0.2, 0.4, 0.6] with weights [0.4, 0.3, 0.2, 0.1] the expected WER
is 0.20. -/
theorem mbr_expected_wer (n : ℕ) (ws wers : List ℚ)
    (h1 : ws.length = n) (h2 : wers.length = n) :
    exp_wer ws wers = ∑ i ∈ Finset.range n, (ws.getD i 0) * (wers.getD i 0)
    ∧ mbr_grad ws wers
        = ∑ i ∈ Finset.range n, (ws.getD i 0) * (wers.getD i 0 - exp_wer ws wers)
    ∧ exp_wer [2/5, 3/10, 1/5, 1/10] [0, 1/5, 2/5, 3/5] = 1/5 := by
  subst h1
  refine ⟨?_, ?_, by decide⟩
  · exact zip_fun_sum (fun a b => a * b) ws wers h2.symm
  · exact zip_fun_sum (fun a b => a * (b - exp_wer ws wers)) ws wers h2.symm

/-- Witness for mbr_expected_wer on the spec's concrete example. -/
theorem mbr_expected_wer_witness :
    exp_wer [2/5, 3/10, 1/5, 1/10] [0, 1/5, 2/5, 3/5]
      = ∑ i ∈ Finset.range 4,
          ((([2/5, 3/10, 1/5, 1/10] : List ℚ).getD i 0)
            * (([0, 1/5, 2/5, 3/5] : List ℚ).getD i 0))
    ∧ mbr_grad [2/5, 3/10, 1/5, 1/10] [0, 1/5, 2/5, 3/5]
      = ∑ i ∈ Finset.range 4,
          ((([2/5, 3/10, 1/5, 1/10] : List ℚ).getD i 0)
            * (([0, 1/5, 2/5, 3/5] : List ℚ).getD i 0
                - exp_wer [2/5, 3/10, 1/5, 1/10] [0, 1/5, 2/5, 3/5]))
    ∧ exp_wer [2/5, 3/10, 1/5, 1/10] [0, 1/5, 2/5, 3/5] = 1/5 :=
  mbr_expected_wer 4 [2/5, 3/10, 1/5, 1/10] [0, 1/5, 2/5, 3/5] (by decide) (by decide)

/-! ## Claim C9: empty-reference utterances and the final division -/

/-- The utterances that contribute to the sums: a nonempty filtered
reference list. -/
def contributing (refs : List (List String)) : List (ℕ × List String) :=
  refs.enum.filter (fun p => decide (0 < (filter_ref_words p.2).length))

lemma cer_fold (wer cer : ℕ → ℚ) :
    ∀ (l : List (ℕ × List String)) (a b : ℚ) (k : ℕ),
      l.foldl (fun (acc : ℚ × ℚ × ℕ) p =>
          if 0 < (filter_ref_words p.2).length then
            (acc.1 + cer p.1, acc.2.1 + wer p.1, acc.2.2)
          else (acc.1, acc.2.1, acc.2.2 + 1)) (a, b, k)
        = (a + ((l.filter (fun p => decide (0 < (filter_ref_words p.2).length))).map
              (fun p => cer p.1)).sum,
           b + ((l.filter (fun p => decide (0 < (filter_ref_words p.2).length))).map
              (fun p => wer p.1)).sum,
           k + l.countP (fun p => !decide (0 < (filter_ref_words p.2).length))) := by
  intro l
  induction l with
  | nil => intro a b k; simp
  | cons p t ih =>
    intro a b k
    by_cases hp : 0 < (filter_ref_words p.2).length
    · have hd : decide (0 < (filter_ref_words p.2).length) = true := decide_eq_true hp
      rw [List.foldl_cons, if_pos hp, ih]
      simp [List.filter_cons, List.countP_cons, hd, Prod.ext_iff]
      constructor <;> ring
    · have hd : decide (0 < (filter_ref_words p.2).length) = false := decide_eq_false hp
      rw [List.foldl_cons, if_neg hp, ih]
      simp [List.filter_cons, List.countP_cons, hd, Prod.ext_iff]
      omega

/-- Counterexample to claim C9 as stated: a dataset whose only utterance has
an empty filtered reference (the single word is the NOISE marker) drives the
final normalization into a division by zero, which do_eval_cer propagates. -/
theorem cer_divzero_cex :
    do_eval_cer [[NOISE]] (fun _ => 0) (fun _ => 0) = Except.error () := rfl

/-- Claim C9 (amended): utterances with an empty filtered reference
contribute to neither the CER/WER sums nor the normalizing denominator,
which is the utterance count minus the skipped count; provided at least one
utterance has a nonempty filtered reference, no division by zero occurs. -/
theorem cer_skip_guarded (refs : List (List String)) (wer cer : ℕ → ℚ)
    (h : contributing refs ≠ []) :
    do_eval_cer refs wer cer
      = Except.ok
          ((((contributing refs).map (fun p => cer p.1)).sum) / ((contributing refs).length : ℚ),
           (((contributing refs).map (fun p => wer p.1)).sum) / ((contributing refs).length : ℚ)) := by
  have hacc : cer_acc refs wer cer
      = (((contributing refs).map (fun p => cer p.1)).sum,
         ((contributing refs).map (fun p => wer p.1)).sum,
         refs.enum.countP (fun p => !decide (0 < (filter_ref_words p.2).length))) := by
    simpa [cer_acc, contributing] using cer_fold wer cer refs.enum 0 0 0
  have h1 : (contributing refs).length
      + refs.enum.countP (fun p => !decide (0 < (filter_ref_words p.2).length))
      = refs.length := by
    have h2 := List.length_eq_countP_add_countP
      (fun p : ℕ × List String => decide (0 < (filter_ref_words p.2).length)) refs.enum
    rw [List.enum_length] at h2
    have hcong : refs.enum.countP
          (fun a => decide ¬(decide (0 < (filter_ref_words a.2).length) = true))
        = refs.enum.countP (fun p => !decide (0 < (filter_ref_words p.2).length)) := by
      apply List.countP_congr
      intro a _
      cases ha : decide (0 < (filter_ref_words a.2).length) <;> simp [ha]
    rw [hcong] at h2
    rw [contributing, ← List.countP_eq_length_filter]
    omega
  have hpos : 0 < (contributing refs).length := List.length_pos.mpr h
  have hc : refs.length
      - refs.enum.countP (fun p => !decide (0 < (filter_ref_words p.2).length))
      = (contributing refs).length := by omega
  rw [do_eval_cer, hacc]
  simp only [hc]
  rw [if_neg (by omega)]

/-- Witness for cer_skip_guarded on a two-utterance dataset where the second
utterance's reference filters to empty. -/
theorem cer_skip_guarded_witness :
    do_eval_cer [["ok"], [NOISE]] (fun i => (i : ℚ) + 2) (fun i => (i : ℚ) + 3)
      = Except.ok
          ((((contributing [["ok"], [NOISE]]).map (fun p => ((p.1 : ℚ) + 3))).sum)
              / ((contributing [["ok"], [NOISE]]).length : ℚ),
           (((contributing [["ok"], [NOISE]]).map (fun p => ((p.1 : ℚ) + 2))).sum)
              / ((contributing [["ok"], [NOISE]]).length : ℚ)) :=
  cer_skip_guarded [["ok"], [NOISE]] (fun i => (i : ℚ) + 2) (fun i => (i : ℚ) + 3)
    (by decide)

/-! ## Claim C8: where the N-best <= beam width check happens -/

/-- A configuration the constructor accepts. -/
def cfg0 : DecConfig where
  rnn_type := "lstm"
  attn_type := "location"
  attn_n_heads := 1
  ctc_weight := 0
  global_weight := 1
  latency_metric := ""
  lm_fusion := none
  has_external_lm := false
  bottleneck_dim := 1
  emb_dim := 1
  tie_embedding := false

/-- Counterexample to claim C8 as stated: construction validates none of the
recognition parameters (nbest and beam width are not constructor inputs, so
rnn_decoder_init_check accepts cfg0 outright), and requesting nbest = 2 with
beam width 1 is rejected only when beam_search itself is called, by a bare
assert that carries no message. -/
theorem nbest_check_cex :
    rnn_decoder_init_check cfg0 = Except.ok ()
    ∧ beam_search_checked { testP with beamWidth := 1, nbest := 2 } testO 0 1
        = Except.error () :=
  ⟨rfl, rfl⟩

/-- Claim C8 (amended): requesting an N-best count greater than the beam
width is rejected by the assertion at the start of the beam_search call,
before any decoding step runs; it never degrades silently (the assertion,
however, carries no descriptive message and does not fire at construction
time). -/
theorem nbest_checked_at_decode (P : BSParams) (o : Oracle) (b elens : ℕ)
    (h : P.beamWidth < P.nbest) :
    beam_search_checked P o b elens = Except.error () := by
  have hc : ¬ (1 ≤ P.nbest ∧ P.nbest ≤ P.beamWidth) :=
    fun hc => absurd hc.2 (Nat.not_le.mpr h)
  simp [beam_search_checked, hc]

/-- Witness for nbest_checked_at_decode. -/
theorem nbest_checked_at_decode_witness :
    beam_search_checked { testP with beamWidth := 1, nbest := 2 } testO 0 1
      = Except.error () :=
  nbest_checked_at_decode { testP with beamWidth := 1, nbest := 2 } testO 0 1 (by decide)

/-! ## Claim C6: zero attention mass in a chunk suppresses all but <eos> -/

/-- Claim C6: in chunk-synchronous beam search, a hypothesis whose attention
weights sum to zero at the current step is re-flagged no_boundary, and the
only continuation of it that can enter the candidate list is the
end-of-sequence one; every non-<eos> continuation is suppressed. -/
theorem no_boundary_eos_only (P : BSParams) (o : Oracle) (chunkT : ℕ) (beam : Hyp)
    (h0 : (o.aw beam.hyp).sum = 0) :
    ∀ c ∈ chunk_step_cands P o chunkT beam,
      (c.hyp = beam.hyp ∧ c.no_boundary = true) ∨ c.hyp = beam.hyp ++ [P.eosTok] := by
  intro c hc
  unfold chunk_step_cands at hc
  rw [if_pos h0] at hc
  rcases List.mem_append.mp hc with hl | hr
  · rcases List.mem_singleton.mp hl with rfl
    exact Or.inl ⟨rfl, rfl⟩
  · rcases List.mem_flatMap.mp hr with ⟨idx, _hidx, hcin⟩
    by_cases he : idx = P.eosTok
    · subst he
      rw [if_neg (fun hand => hand.2 rfl)] at hcin
      by_cases hig : P.ignoreEos
      · rw [if_pos ⟨rfl, hig⟩] at hcin
        rcases List.mem_singleton.mp hcin with rfl
        exact Or.inl ⟨rfl, rfl⟩
      · rw [if_neg (fun hand => hig hand.2)] at hcin
        split at hcin
        · exact absurd hcin (List.not_mem_nil c)
        · rcases List.mem_singleton.mp hcin with rfl
          exact Or.inr rfl
    · rw [if_pos ⟨h0, he⟩] at hcin
      exact absurd hcin (List.not_mem_nil c)

/-- Witness for no_boundary_eos_only: a concrete hypothesis with zero
attention mass, whose re-flagged copy is in the candidate list. -/
theorem no_boundary_eos_only_witness :
    (([0, 0] : List ℚ)).sum = 0
    ∧ (((flag_nobd 2 (init_hyp testP 0)).hyp = (init_hyp testP 0).hyp
        ∧ (flag_nobd 2 (init_hyp testP 0)).no_boundary = true)
      ∨ (flag_nobd 2 (init_hyp testP 0)).hyp = (init_hyp testP 0).hyp ++ [testP.eosTok]) :=
  ⟨by decide,
   no_boundary_eos_only testP
    { att := fun _ => [-3, -1, -2], aw := fun _ => [0, 0], lm := fun _ => [0, 0, 0],
      ctc := fun _ _ => 0, rlog := fun _ => 0, rpow := fun _ _ => 0 }
    2 (init_hyp testP 0) (by decide) (flag_nobd 2 (init_hyp testP 0)) (by decide)⟩

/-! ## Claim C10: the cross-utterance carry-over writes of beam_search -/

lemma batch_fold_succ (P : BSParams) (os : ℕ → Oracle) (elens : ℕ → ℕ)
    (speakers : Option (List ℕ)) (n : ℕ) :
    batch_fold P os elens speakers (n + 1)
      = (speaker_reset speakers n (batch_fold P os elens speakers n).1,
         (beam_search_utt P (os n) n (elens n)).2) := by
  rw [batch_fold, batch_fold, List.range_succ, List.foldl_append, List.foldl_cons,
    List.foldl_nil]

lemma batch_fold_none_fst (P : BSParams) (os : ℕ → Oracle) (elens : ℕ → ℕ) :
    ∀ bs, (batch_fold P os elens none bs).1 = ⟨none, none, none, 0, 0⟩ := by
  intro bs
  induction bs with
  | zero => rfl
  | succ n ih =>
    rw [batch_fold_succ]
    simpa [speaker_reset] using ih

/-- Counterexample to claim C10 as stated: when a speaker list is passed,
dstates_final is not written exactly once; it is also reset to None inside
the per-utterance loop at every speaker change (including the first
utterance, whose speaker differs from the initial empty prev_spk), here
twice before the final write. -/
theorem state_write_cex :
    ¬ ((beam_search_batch { testP with hasLM := true } (fun _ => testOEos)
        (fun _ => 1) (some [5, 6]) 2).dWrites = 1) := by decide

/-- Claim C10 (amended): when no speaker list is passed, dstates_final and
(with a first-pass RNNLM) lmstate_final are each written exactly once, after
the per-utterance loop, and their final value comes from the top-scored
hypothesis of the last utterance in the batch only; with a speaker list they
may additionally be reset to None inside the loop on speaker change, the
final value still coming from the last utterance. -/
theorem state_write_final (P : BSParams) (os : ℕ → Oracle) (elens : ℕ → ℕ) (bs : ℕ)
    (hbs : 1 ≤ bs) (hlm : P.hasLM = true) :
    (beam_search_batch P os elens none bs).dWrites = 1
    ∧ (beam_search_batch P os elens none bs).lmWrites = 1
    ∧ (beam_search_batch P os elens none bs).dstatesFinal
        = some ((beam_search_utt P (os (bs - 1)) (bs - 1) (elens (bs - 1))).2.headI.dstate)
    ∧ (beam_search_batch P os elens none bs).lmstateFinal
        = some ((beam_search_utt P (os (bs - 1)) (bs - 1) (elens (bs - 1))).2.headI.dstate) := by
  obtain ⟨n, rfl⟩ : ∃ n, bs = n + 1 := ⟨bs - 1, (Nat.succ_pred_eq_of_pos hbs).symm⟩
  have h2 : (batch_fold P os elens none (n + 1)).2
      = (beam_search_utt P (os n) n (elens n)).2 := by
    rw [batch_fold_succ]
  have h1 := batch_fold_none_fst P os elens (n + 1)
  simp [beam_search_batch, h1, h2, hlm, Nat.add_sub_cancel]

/-- Witness for state_write_final on a one-utterance batch. -/
theorem state_write_final_witness :
    (beam_search_batch { testP with hasLM := true } (fun _ => testOEos)
        (fun _ => 1) none 1).dWrites = 1
    ∧ (beam_search_batch { testP with hasLM := true } (fun _ => testOEos)
        (fun _ => 1) none 1).lmWrites = 1
    ∧ (beam_search_batch { testP with hasLM := true } (fun _ => testOEos)
        (fun _ => 1) none 1).dstatesFinal
        = some ((beam_search_utt { testP with hasLM := true } testOEos 0 1).2.headI.dstate)
    ∧ (beam_search_batch { testP with hasLM := true } (fun _ => testOEos)
        (fun _ => 1) none 1).lmstateFinal
        = some ((beam_search_utt { testP with hasLM := true } testOEos 0 1).2.headI.dstate) :=
  state_write_final { testP with hasLM := true } (fun _ => testOEos) (fun _ => 1) 1
    (by decide) (by decide)

/-! ## Claim C4: top-k selection by cumulative attention score only -/

lemma beam_step_cands_mem (P : BSParams) (o : Oracle) (b elens : ℕ) (beam : Hyp) :
    ∀ c ∈ beam_step_cands P o b elens beam,
      ∃ i ∈ step_topk_ids P beam (o.att beam.hyp),
        c = mk_cand P o b beam (o.att beam.hyp) (o.aw beam.hyp)
          (step_cp P o beam (o.aw beam.hyp))
          (fused_score P o beam (o.att beam.hyp) (step_cp P o beam (o.aw beam.hyp)) i)
          i := by
  intro c hc
  unfold beam_step_cands at hc
  rcases List.mem_filterMap.mp hc with ⟨i, hi, hf⟩
  by_cases he : eos_ok P elens beam (o.att beam.hyp) i
  · rw [if_pos he] at hf
    exact ⟨i, hi, (Option.some.inj hf).symm⟩
  · rw [if_neg he] at hf
    exact absurd hf (by simp)

/-- Counterexample to claim C4 as stated: with ctc_weight = 1 the top-k
selection runs on total_scores_att * (1 - ctc_weight) = all zeros, so it
returns the first beam_width indices regardless of the attention scores;
here index 0 is selected although the cumulative attention score prefers
index 1. -/
theorem topk_attention_only_cex :
    ¬ (step_topk_ids { testP with beamWidth := 1, ctcWeight := 1 } (init_hyp testP 0)
          [0, 5, -9]
        = topkIndices 1 (shifted (init_hyp testP 0).score_att [0, 5, -9])) := by decide

/-- Claim C4 (amended): provided ctc_weight < 1, at every step and for each
hypothesis the top beam_width continuations are selected using only the
cumulative attention score (the accumulated attention score plus the
per-token attention scores; the code multiplies by 1 - ctc_weight before the
top-k, which preserves the selection); LM score, length penalty, coverage
penalty and CTC prefix score are added afterwards, to candidates drawn from
exactly that selection. -/
theorem topk_attention_only (P : BSParams) (o : Oracle) (b elens : ℕ) (beam : Hyp)
    (h : P.ctcWeight < 1) :
    step_topk_ids P beam (o.att beam.hyp)
      = topkIndices P.beamWidth (shifted beam.score_att (o.att beam.hyp))
    ∧ ∀ c ∈ beam_step_cands P o b elens beam,
        ∃ i ∈ topkIndices P.beamWidth (shifted beam.score_att (o.att beam.hyp)),
          c.hyp = beam.hyp ++ [i] := by
  have hpos : (0 : ℚ) < 1 - P.ctcWeight := by linarith
  have hmono : ∀ x y : ℚ, x < y ↔ x * (1 - P.ctcWeight) < y * (1 - P.ctcWeight) :=
    fun _ _ => (mul_lt_mul_right hpos).symm
  have hsel : step_topk_ids P beam (o.att beam.hyp)
      = topkIndices P.beamWidth (shifted beam.score_att (o.att beam.hyp)) := by
    unfold step_topk_ids step_total_scores scaled
    exact topkIndices_map (fun x => x * (1 - P.ctcWeight)) hmono P.beamWidth _
  refine ⟨hsel, ?_⟩
  intro c hc
  rcases beam_step_cands_mem P o b elens beam c hc with ⟨i, hi, rfl⟩
  exact ⟨i, hsel ▸ hi, rfl⟩

/-- Witness for topk_attention_only at a concrete configuration. -/
theorem topk_attention_only_witness :
    testP.ctcWeight < 1
    ∧ (step_topk_ids testP (init_hyp testP 0) (testO.att (init_hyp testP 0).hyp)
        = topkIndices testP.beamWidth
            (shifted (init_hyp testP 0).score_att (testO.att (init_hyp testP 0).hyp))
      ∧ ∀ c ∈ beam_step_cands testP testO 0 2 (init_hyp testP 0),
          ∃ i ∈ topkIndices testP.beamWidth
              (shifted (init_hyp testP 0).score_att (testO.att (init_hyp testP 0).hyp)),
            c.hyp = (init_hyp testP 0).hyp ++ [i]) :=
  ⟨by decide, topk_attention_only testP testO 0 2 (init_hyp testP 0) (by decide)⟩

/-! ## Claim C2: the stored decomposition of a completed hypothesis's score -/

/-- The additive length-penalty contribution of the claim's formula: zero
when lp_weight is not positive (the code adds nothing then). -/
def lp_term (P : BSParams) (n : ℕ) : ℚ :=
  if 0 < P.lpWeight then (n : ℚ) * P.lpWeight else 0

/-- The claim's recomposition: total score = (1 - ctc_weight) * attention
score + ctc_weight * CTC score + length-penalty term + cp_weight * stored
coverage + lm_weight * LM score, from the stored components. -/
abbrev score_decomposed (P : BSParams) (h : Hyp) : Prop :=
  h.score = (1 - P.ctcWeight) * h.score_att + P.ctcWeight * h.score_ctc
    + lp_term P (h.hyp.length - 1) + P.cpWeight * h.score_cp + P.lmWeight * h.score_lm

lemma getD_map_zero (f : ℚ → ℚ) (h0 : f 0 = 0) :
    ∀ (l : List ℚ) (n : ℕ), (l.map f).getD n 0 = f (l.getD n 0) := by
  intro l
  induction l with
  | nil => intro n; simpa using h0.symm
  | cons x t ih =>
    intro n
    cases n with
    | zero => rfl
    | succ n => simpa using ih n

lemma mk_cand_decomposed (P : BSParams) (o : Oracle) (b : ℕ) (beam : Hyp) (i : ℕ)
    (hln : P.lengthNorm = false) (hg : P.gnmt = false) (hne : beam.hyp ≠ []) :
    score_decomposed P
      (mk_cand P o b beam (o.att beam.hyp) (o.aw beam.hyp)
        (step_cp P o beam (o.aw beam.hyp))
        (fused_score P o beam (o.att beam.hyp) (step_cp P o beam (o.aw beam.hyp)) i)
        i) := by
  have hcast : ((plen beam : ℕ) : ℚ) + 1 = (beam.hyp.length : ℚ) := by
    have h1 : plen beam + 1 = beam.hyp.length :=
      Nat.succ_pred_eq_of_pos (List.length_pos.mpr hne)
    exact_mod_cast h1
  have hgetD : (step_total_scores P beam (o.att beam.hyp)).getD i 0
      = (shifted beam.score_att (o.att beam.hyp)).getD i 0 * (1 - P.ctcWeight) := by
    unfold step_total_scores scaled
    exact getD_map_zero (fun x => x * (1 - P.ctcWeight)) (by ring) _ i
  unfold score_decomposed mk_cand fused_score lp_term step_cp
  simp only [hln, hg, if_false, Bool.false_eq_true, ite_false, div_one,
    List.length_append, List.length_cons, List.length_nil]
  rw [hgetD]
  have hlen : beam.hyp.length + (0 + 1) - 1 = beam.hyp.length := by omega
  rw [hlen]
  by_cases hlp : 0 < P.lpWeight
  · rw [if_pos hlp, if_pos hlp]
    by_cases hcp : 0 < P.cpWeight
    · rw [if_pos hcp, if_pos hcp]
      rw [← hcast]
      ring
    · rw [if_neg hcp, if_neg hcp]
      rw [← hcast]
      ring
  · rw [if_neg hlp, if_neg hlp]
    by_cases hcp : 0 < P.cpWeight
    · rw [if_pos hcp, if_pos hcp]
      ring
    · rw [if_neg hcp, if_neg hcp]
      ring

/-- Hypotheses whose token list is nonempty and whose stored score
decomposes as claimed. -/
def hyps_ok (P : BSParams) (l : List Hyp) : Prop :=
  ∀ h ∈ l, h.hyp ≠ [] ∧ score_decomposed P h

lemma beam_iter_ok (P : BSParams) (o : Oracle) (b elens : ℕ)
    (hln : P.lengthNorm = false) (hg : P.gnmt = false) (st : BeamState)
    (h1 : hyps_ok P st.hyps) (h2 : hyps_ok P st.endHyps) :
    hyps_ok P (beam_iter P o b elens st).hyps
    ∧ hyps_ok P (beam_iter P o b elens st).endHyps := by
  have hcand : ∀ c ∈ st.hyps.flatMap (beam_step_cands P o b elens),
      c.hyp ≠ [] ∧ score_decomposed P c := by
    intro c hc
    rcases List.mem_flatMap.mp hc with ⟨parent, hp, hcp⟩
    rcases beam_step_cands_mem P o b elens parent c hcp with ⟨i, _, rfl⟩
    refine ⟨by simp [mk_cand], ?_⟩
    exact mk_cand_decomposed P o b parent i hln hg (h1 parent hp).1
  have hpruned : ∀ c ∈ (sortScoreDesc
      (st.hyps.flatMap (beam_step_cands P o b elens))).take P.beamWidth,
      c.hyp ≠ [] ∧ score_decomposed P c := by
    intro c hc
    exact hcand c (mem_sortScoreDesc.mp (List.mem_of_mem_take hc))
  unfold beam_iter
  split
  · exact ⟨h1, h2⟩
  · constructor
    · intro c hc
      simp only [remove_complete_hyp] at hc
      exact hpruned c (List.mem_of_mem_filter hc)
    · intro c hc
      simp only [remove_complete_hyp] at hc
      rcases List.mem_append.mp hc with hold | hnew
      · exact h2 c hold
      · exact hpruned c (List.mem_of_mem_filter hnew)

lemma beam_loop_ok (P : BSParams) (o : Oracle) (b elens : ℕ)
    (hln : P.lengthNorm = false) (hg : P.gnmt = false) :
    ∀ (n : ℕ) (st : BeamState), hyps_ok P st.hyps → hyps_ok P st.endHyps →
      hyps_ok P (beam_loop P o b elens n st).hyps
      ∧ hyps_ok P (beam_loop P o b elens n st).endHyps := by
  intro n
  induction n with
  | zero => intro st ha hb; exact ⟨ha, hb⟩
  | succ n ih =>
    intro st ha hb
    have hstep := beam_iter_ok P o b elens hln hg st ha hb
    exact ih _ hstep.1 hstep.2

lemma mem_backfill (P : BSParams) (st : BeamState) {a : Hyp} (h : a ∈ backfill P st) :
    a ∈ st.endHyps ∨ a ∈ st.hyps := by
  unfold backfill at h
  split at h
  · exact Or.inr h
  split at h
  · rcases List.mem_append.mp h with h1 | h2
    · exact Or.inl h1
    · exact Or.inr (List.mem_of_mem_take h2)
  · exact Or.inl h

/-- An oracle driving a single-beam search to complete [1, <eos>] with
length normalization active: full score -2, normalized stored score -1. -/
def oLN : Oracle where
  att := fun p => if p.length = 1 then [-10, -1, -5] else [-1, -2, -5]
  aw := fun _ => [1]
  lm := fun _ => [0, 0, 0]
  ctc := fun _ _ => 0
  rlog := fun _ => 0
  rpow := fun _ _ => 0

/-- Counterexample to claim C2 as stated: with length normalization enabled
(recog_length_norm), the stored 'score' of a completed hypothesis is the
fused sum divided by the hypothesis length, so it does not equal the
recomposition from the stored components (here -1 versus -2, far beyond any
floating-point tolerance). -/
theorem score_decomposition_cex :
    ((beam_search_utt { testP with beamWidth := 1, lengthNorm := true }
        oLN 0 2).2.headI.hyp.getLast? = some 0)
    ∧ ¬ score_decomposed { testP with beamWidth := 1, lengthNorm := true }
        ((beam_search_utt { testP with beamWidth := 1, lengthNorm := true }
          oLN 0 2).2.headI) := by decide

/-- Claim C2 (amended): with length normalization disabled and GNMT-style
decoding disabled, every hypothesis in the completed set returned by batch
beam search has score = (1 - ctc_weight) * score_att + ctc_weight *
score_ctc + length-penalty term + cp_weight * score_cp + lm_weight *
score_lm, exactly (floating-point tolerance becomes exact rational
equality). -/
theorem score_decomposition_holds (P : BSParams) (o : Oracle) (b elens : ℕ)
    (hln : P.lengthNorm = false) (hg : P.gnmt = false) :
    ∀ h ∈ (beam_search_utt P o b elens).2, score_decomposed P h := by
  intro h hmem
  have hinit : hyps_ok P [init_hyp P b] := by
    intro c hc
    rcases List.mem_singleton.mp hc with rfl
    refine ⟨by simp [init_hyp], ?_⟩
    simp [score_decomposed, init_hyp, lp_term]
  have hfin := beam_loop_ok P o b elens hln hg (ymaxOf elens P.max_len_ratio)
    { hyps := [init_hyp P b], endHyps := [], steps := 0, finished := false }
    hinit (by intro c hc; exact absurd hc (List.not_mem_nil c))
  have hmem2 : h ∈ backfill P (beam_search_final P o b elens) := by
    have : h ∈ sortScoreDesc (backfill P (beam_search_final P o b elens)) := hmem
    exact mem_sortScoreDesc.mp this
  rcases mem_backfill P _ hmem2 with he | ha
  · exact (hfin.2 h he).2
  · exact (hfin.1 h ha).2

/-- Witness for score_decomposition_holds on a concrete completed search. -/
theorem score_decomposition_holds_witness :
    score_decomposed { testP with beamWidth := 1 }
      ((beam_search_utt { testP with beamWidth := 1 } testOEos 0 1).2.headI) :=
  score_decomposition_holds { testP with beamWidth := 1 } testOEos 0 1 rfl rfl
    ((beam_search_utt { testP with beamWidth := 1 } testOEos 0 1).2.headI)
    (by decide)

/-! ## Claim C3: beam width 1 versus the greedy decoder -/

lemma sortScoreDesc_singleton (h : Hyp) : sortScoreDesc [h] = [h] := rfl

lemma beam_loop_finished (P : BSParams) (o : Oracle) (b elens : ℕ) :
    ∀ (n : ℕ) (st : BeamState), st.finished = true → beam_loop P o b elens n st = st := by
  intro n
  induction n with
  | zero => intro st _; rfl
  | succ n ih =>
    intro st hf
    have : beam_iter P o b elens st = st := by
      unfold beam_iter
      rw [if_pos (Or.inl hf)]
    rw [beam_loop, this]
    exact ih st hf

lemma greedy_loop_finished (o : Oracle) (eosTok : ℕ) :
    ∀ (n : ℕ) (st : GreedyState), st.finished = true → greedy_loop o eosTok n st = st := by
  intro n
  induction n with
  | zero => intro st _; rfl
  | succ n ih =>
    intro st hf
    have : greedy_iter o eosTok st = st := by
      unfold greedy_iter
      rw [if_pos hf]
    rw [greedy_loop, this]
    exact ih st hf

lemma scaled_one (l : List ℚ) : scaled 1 l = l := by
  simp [scaled]

lemma shifted_ne_nil (c : ℚ) {l : List ℚ} (h : l ≠ []) : shifted c l ≠ [] := by
  simpa [shifted] using h

lemma argmaxIdx_shifted (c : ℚ) (l : List ℚ) : argmaxIdx (shifted c l) = argmaxIdx l :=
  argmaxIdx_map (fun x => c + x) (fun _ _ => (add_lt_add_iff_left c).symm) l

lemma step_topk_ids_one (P : BSParams) (beam : Hyp) (l : List ℚ)
    (hbw : P.beamWidth = 1) (hcw : P.ctcWeight = 0) (hne : l ≠ []) :
    step_topk_ids P beam l = [argmaxIdx l] := by
  unfold step_topk_ids step_total_scores
  rw [hcw, hbw]
  norm_num [scaled_one]
  rw [topkIndices_one _ (shifted_ne_nil beam.score_att hne), argmaxIdx_shifted]

lemma eos_ok_ne (P : BSParams) (elens : ℕ) (beam : Hyp) (s : List ℚ) (i : ℕ)
    (hi : i ≠ P.eosTok) : eos_ok P elens beam s i = true := by
  simp [eos_ok, hi]

lemma eos_ok_eos (P : BSParams) (elens : ℕ) (beam : Hyp) (s : List ℚ)
    (hml : P.min_len_ratio = 0)
    (hpass : P.eosThreshold * maxExcept s P.eosTok < s.getD P.eosTok 0) :
    eos_ok P elens beam s P.eosTok = true := by
  unfold eos_ok
  rw [if_pos rfl, hml, mul_zero, if_neg (not_lt.mpr (Nat.cast_nonneg _))]
  exact decide_eq_true hpass

lemma beam_step_cands_one (P : BSParams) (o : Oracle) (b elens : ℕ) (h : Hyp)
    (hbw : P.beamWidth = 1) (hcw : P.ctcWeight = 0) (hne : o.att h.hyp ≠ [])
    (hok : eos_ok P elens h (o.att h.hyp) (argmaxIdx (o.att h.hyp)) = true) :
    beam_step_cands P o b elens h
      = [mk_cand P o b h (o.att h.hyp) (o.aw h.hyp) (step_cp P o h (o.aw h.hyp))
          (fused_score P o h (o.att h.hyp) (step_cp P o h (o.aw h.hyp))
            (argmaxIdx (o.att h.hyp)))
          (argmaxIdx (o.att h.hyp))] := by
  unfold beam_step_cands
  rw [step_topk_ids_one P h _ hbw hcw hne]
  simp [List.filterMap, hok]

lemma remove_complete_single_ne (eosTok i : ℕ) (hi : i ≠ eosTok) (c : Hyp)
    (hc : c.hyp.getLast? = some i) (endH : List Hyp) :
    remove_complete_hyp eosTok [c] endH = ([c], endH, false) := by
  have hd : decide (c.hyp.getLast? = some eosTok) = false := by
    rw [hc]
    exact decide_eq_false (by simpa using hi)
  simp [remove_complete_hyp, hd]

lemma remove_complete_single_eos (eosTok : ℕ) (c : Hyp)
    (hc : c.hyp.getLast? = some eosTok) (endH : List Hyp) :
    remove_complete_hyp eosTok [c] endH = ([], endH ++ [c], true) := by
  have hd : decide (c.hyp.getLast? = some eosTok) = true := by
    rw [hc]
    exact decide_eq_true rfl
  simp [remove_complete_hyp, hd]

/-- The token sequences read off a finished single-beam state. -/
def beam1_result (P : BSParams) (st : BeamState) : List (List ℕ) :=
  (sortScoreDesc (backfill P st)).map (fun c => c.hyp.drop 1)

lemma beam1_loop_agree (P : BSParams) (o : Oracle) (b elens : ℕ)
    (hbw : P.beamWidth = 1) (hcw : P.ctcWeight = 0) (hml : P.min_len_ratio = 0)
    (hnb : P.nbest = 1)
    (hne : ∀ p, o.att p ≠ [])
    (hth : ∀ p, argmaxIdx (o.att p) = P.eosTok →
      P.eosThreshold * maxExcept (o.att p) P.eosTok < (o.att p).getD P.eosTok 0) :
    ∀ (fuel : ℕ) (toks : List ℕ) (h : Hyp) (ns ms : ℕ),
      h.hyp = P.eosTok :: toks →
      beam1_result P (beam_loop P o b elens fuel
          { hyps := [h], endHyps := [], steps := ns, finished := false })
        = [(greedy_loop o P.eosTok fuel
            { toks := toks, steps := ms, finished := false }).toks] := by
  intro fuel
  induction fuel with
  | zero =>
    intro toks h ns ms hh
    simp [beam_loop, greedy_loop, beam1_result, backfill, sortScoreDesc_singleton, hh]
  | succ fuel ih =>
    intro toks h ns ms hh
    have hs := hne h.hyp
    by_cases hi : argmaxIdx (o.att h.hyp) = P.eosTok
    · -- the selected continuation is <eos>: both sides stop with toks ++ [eos]
      have hok : eos_ok P elens h (o.att h.hyp) (argmaxIdx (o.att h.hyp)) = true := by
        rw [hi]
        exact eos_ok_eos P elens h _ hml (hth h.hyp hi)
      have hcands := beam_step_cands_one P o b elens h hbw hcw hs hok
      have hlast : (mk_cand P o b h (o.att h.hyp) (o.aw h.hyp)
          (step_cp P o h (o.aw h.hyp))
          (fused_score P o h (o.att h.hyp) (step_cp P o h (o.aw h.hyp))
            (argmaxIdx (o.att h.hyp)))
          (argmaxIdx (o.att h.hyp))).hyp.getLast? = some P.eosTok := by
        rw [← hi]
        simp [mk_cand]
      have hiter : beam_iter P o b elens
          { hyps := [h], endHyps := [], steps := ns, finished := false }
          = { hyps := [],
              endHyps := [mk_cand P o b h (o.att h.hyp) (o.aw h.hyp)
                (step_cp P o h (o.aw h.hyp))
                (fused_score P o h (o.att h.hyp) (step_cp P o h (o.aw h.hyp))
                  (argmaxIdx (o.att h.hyp)))
                (argmaxIdx (o.att h.hyp))],
              steps := ns + 1, finished := true } := by
        unfold beam_iter
        rw [if_neg (by simp)]
        simp only [List.flatMap_cons, List.flatMap_nil, List.append_nil, hcands,
          sortScoreDesc_singleton, hbw, List.take_succ_cons, List.take_nil,
          remove_complete_single_eos P.eosTok _ hlast, List.nil_append]
      rw [beam_loop, hiter, beam_loop_finished P o b elens fuel _ rfl]
      have hgiter : greedy_iter o P.eosTok { toks := toks, steps := ms, finished := false }
          = { toks := toks ++ [argmaxIdx (o.att (P.eosTok :: toks))], steps := ms + 1,
              finished := true } := by
        unfold greedy_iter
        rw [if_neg (by simp)]
        simp [← hh, hi]
      rw [greedy_loop, hgiter, greedy_loop_finished o P.eosTok fuel _ rfl]
      have hback : backfill P
          { hyps := ([] : List Hyp),
            endHyps := [mk_cand P o b h (o.att h.hyp) (o.aw h.hyp)
              (step_cp P o h (o.aw h.hyp))
              (fused_score P o h (o.att h.hyp) (step_cp P o h (o.aw h.hyp))
                (argmaxIdx (o.att h.hyp)))
              (argmaxIdx (o.att h.hyp))],
            steps := ns + 1, finished := true }
          = [mk_cand P o b h (o.att h.hyp) (o.aw h.hyp)
              (step_cp P o h (o.aw h.hyp))
              (fused_score P o h (o.att h.hyp) (step_cp P o h (o.aw h.hyp))
                (argmaxIdx (o.att h.hyp)))
              (argmaxIdx (o.att h.hyp))] := by
        unfold backfill
        rw [if_neg (by simp), if_neg (by simp [hnb])]
      rw [beam1_result, hback, sortScoreDesc_singleton]
      simp [mk_cand, hh, List.cons_append]

    · -- a regular token: one more step on both sides
      have hok : eos_ok P elens h (o.att h.hyp) (argmaxIdx (o.att h.hyp)) = true :=
        eos_ok_ne P elens h _ _ hi
      have hcands := beam_step_cands_one P o b elens h hbw hcw hs hok
      have hlast : (mk_cand P o b h (o.att h.hyp) (o.aw h.hyp)
          (step_cp P o h (o.aw h.hyp))
          (fused_score P o h (o.att h.hyp) (step_cp P o h (o.aw h.hyp))
            (argmaxIdx (o.att h.hyp)))
          (argmaxIdx (o.att h.hyp))).hyp.getLast? = some (argmaxIdx (o.att h.hyp)) := by
        simp [mk_cand]
      have hiter : beam_iter P o b elens
          { hyps := [h], endHyps := [], steps := ns, finished := false }
          = { hyps := [mk_cand P o b h (o.att h.hyp) (o.aw h.hyp)
                (step_cp P o h (o.aw h.hyp))
                (fused_score P o h (o.att h.hyp) (step_cp P o h (o.aw h.hyp))
                  (argmaxIdx (o.att h.hyp)))
                (argmaxIdx (o.att h.hyp))],
              endHyps := [], steps := ns + 1, finished := false } := by
        unfold beam_iter
        rw [if_neg (by simp)]
        simp only [List.flatMap_cons, List.flatMap_nil, List.append_nil, hcands,
          sortScoreDesc_singleton, hbw, List.take_succ_cons, List.take_nil,
          remove_complete_single_ne P.eosTok _ hi _ hlast]
      have hgiter : greedy_iter o P.eosTok { toks := toks, steps := ms, finished := false }
          = { toks := toks ++ [argmaxIdx (o.att (P.eosTok :: toks))], steps := ms + 1,
              finished := false } := by
        unfold greedy_iter
        rw [if_neg (by simp)]
        simp [← hh, hi]
      rw [beam_loop, hiter, greedy_loop, hgiter]
      rw [← hh]
      exact ih (toks ++ [argmaxIdx (o.att h.hyp)]) _ (ns + 1) (ms + 1)
        (by simp [mk_cand, hh])


/-- Counterexample input to claim C3: token 1 always strictly best, so
<eos> is never produced. -/
def oCex : Oracle where
  att := fun _ => [-2, -1]
  aw := fun _ => [1]
  lm := fun _ => [0, 0]
  ctc := fun _ _ => 0
  rlog := fun _ => 0
  rpow := fun _ _ => 0

/-- Counterexample to claim C3 as stated: beam search caps its loop at
floor(elens[b] * max_len_ratio) + 1 while greedy caps at floor(xmax *
max_len_ratio) + 1 with xmax the padded batch length, so for an utterance
with elens[b] = 1 inside a batch padded to xmax = 2 (max_len_ratio = 1, beam
width 1, ctc_weight 0, no LM), beam search returns a 2-token sequence where
greedy returns 3 tokens. -/
theorem beam1_greedy_cex :
    ¬ (beam_search_tokens { testP with beamWidth := 1 } oCex 0 1
        = [greedy_tokens oCex 0 2 1]) := by decide

/-- Claim C3 (amended): with beam width 1, CTC weight 0, no LM influence on
the selection, min_len_ratio = 0, nbest = 1, the utterance's encoder length
equal to the padded batch length, nonempty score rows, and an <eos>
threshold that admits <eos> whenever it is the argmax, batch beam search
returns exactly the greedy decoder's token sequence. -/
theorem beam1_greedy_agree (P : BSParams) (o : Oracle) (b elens T : ℕ)
    (hbw : P.beamWidth = 1) (hcw : P.ctcWeight = 0) (hml : P.min_len_ratio = 0)
    (hnb : P.nbest = 1) (hT : elens = T)
    (hne : ∀ p, o.att p ≠ [])
    (hth : ∀ p, argmaxIdx (o.att p) = P.eosTok →
      P.eosThreshold * maxExcept (o.att p) P.eosTok < (o.att p).getD P.eosTok 0) :
    beam_search_tokens P o b elens = [greedy_tokens o P.eosTok T P.max_len_ratio] := by
  subst hT
  have hmain := beam1_loop_agree P o b elens hbw hcw hml hnb hne hth
    (ymaxOf elens P.max_len_ratio) [] (init_hyp P b) 0 0 (by simp [init_hyp])
  rw [beam1_result] at hmain
  unfold beam_search_tokens beam_search_utt beam_search_final
  rw [hnb, List.map_take, hmain]
  rfl

/-- Witness for beam1_greedy_agree: both decoders emit [<eos>] on an oracle
whose argmax is always <eos>. -/
theorem beam1_greedy_agree_witness :
    beam_search_tokens { testP with beamWidth := 1 } testOEos 0 2
      = [greedy_tokens testOEos 0 2 1] := by
  have h1 : ([-1, -2, -3] : List ℚ) ≠ [] := by decide
  have h2 : (1 : ℚ) * maxExcept [-1, -2, -3] 0 < -1 := by decide
  exact beam1_greedy_agree { testP with beamWidth := 1 } testOEos 0 2 2
    rfl rfl rfl rfl rfl (fun _ => h1) (fun _ _ => h2)

end NeuralSP
